import Mathlib

/-!
Shallow embedding of the AFL LLVM instrumentation pass
(`llvm_mode/afl-llvm-pass.so.cc`, function `AFLCoverage::runOnModule`).

The pass walks every basic block of every function, samples blocks with a
configurable probability, and for each sampled block emits:
  * an edge-coverage update (8 IR instructions keyed by a per-block random
    location and a thread-local previous location; the source also calls
    `CreateZExt` on the already-i32 previous location, which folds to a
    no-op and inserts nothing),
  * optionally branch/switch distance-reporting calls `insert_distance`,
  * an `insert_block` call reporting the block's identifier.
Block identifiers come from a 4-byte counter persisted in `/tmp/.cur_id`.

Machine integers are modelled as `Nat` with explicit `% 2 ^ 32` where the
source truncates to `i32`.  LLVM `Value` identity (used by the pass when it
compares switch operands with pointer equality) is modelled by `Nat`
identifiers for basic-block destinations.  The model assumes blocks contain
no PHI nodes, so `getFirstInsertionPt` is the start of the block.
-/

namespace AFLPass

/-- Runtime call `insert_distance(BlockID, CaseLabel, DistanceValue)`,
emitted by the pass; the triple of `i32` arguments. -/
structure DistanceRecord where
  blockId : Nat
  caseLabel : Nat
  distance : Nat
  deriving DecidableEq, Repr

/-- Non-terminator instruction of an original basic block.  The pass only
distinguishes an integer comparison (`ICmpInst`, with the flag telling
whether the operand type `isIntegerTy`, the operand bit width, and the two
runtime operand values) from everything else. -/
inductive Instr where
  | icmp (isInt : Bool) (width : Nat) (a0 a1 : Nat)
  | otherInstr
  deriving DecidableEq, Repr

/-- One case of a `switch` terminator: the case constant and the identity of
its destination basic block (operands `2n+2` and `2n+3` of `SwitchInst`). -/
structure SwitchCase where
  value : Nat
  dest : Nat
  deriving DecidableEq, Repr

/-- A `switch` terminator: bit width of the scalar condition type, the
runtime condition value, the identity of the default destination
(operand 1), and the cases in declaration order. -/
structure SwitchInfo where
  width : Nat
  cond : Nat
  defaultDest : Nat
  cases : List SwitchCase
  deriving DecidableEq, Repr

/-- Terminator of a basic block: a branch (conditional or not), a switch, or
any other terminator. -/
inductive Term where
  | br (conditional : Bool)
  | switch (si : SwitchInfo)
  | other
  deriving DecidableEq, Repr

/-- A basic block: its non-terminator instructions in order, then its
terminator.  (No PHI nodes are modelled, see the file header.) -/
structure BB where
  body : List Instr
  term : Term
  deriving DecidableEq, Repr

/-- Number of instructions of the block, `BB.size()` in the source
(the terminator counts). -/
def BB.size (bb : BB) : Nat :=
  bb.body.length + 1

/-! ### Case-label construction (source lines 188-204)

The source collects the odd-numbered operands `getOperand(1 + 2 * I)` of the
`SwitchInst` for `I = 0 .. NumCases`: operand 1 is the *default destination*
and operand `2n+3` is the *destination* of case `n`.  It then assigns labels
`1, 2, ...` by the nested loop below, comparing operands with pointer
equality. -/

/-- Destination-operand list of a switch, in operand order: the default
destination first (operand 1), then each case's destination. -/
def destOperands (si : SwitchInfo) : List Nat :=
  si.defaultDest :: si.cases.map SwitchCase.dest

/-- Inner loop of the label construction: for every position `J`, if the
destination there equals `dI` and the slot is still unlabelled, write the
current label. -/
def labelInner (dI cur : Nat) (pairs : List (Nat × Nat)) : List Nat :=
  pairs.map fun p => if p.1 = dI ∧ p.2 = 0 then cur else p.2

/-- Guard of the inner loop: some position still unlabelled holds `dI`
(the `Updated` flag of the source). -/
def labelUpdated (dI : Nat) (pairs : List (Nat × Nat)) : Bool :=
  pairs.any fun p => p.1 = dI && p.2 = 0

/-- Outer loop of the label construction: iterate `dI` over the destination
operands in order, rewriting the label array and bumping `CurLabel` whenever
a slot was written. -/
def buildLabelsAux (dests : List Nat) : List Nat → List Nat → Nat → List Nat
  | [], labels, _ => labels
  | dI :: todo, labels, cur =>
      buildLabelsAux dests todo (labelInner dI cur (dests.zip labels))
        (if labelUpdated dI (dests.zip labels) then cur + 1 else cur)

/-- Label array `Labels[0 .. NumCases]` computed by the source: start from
all zeroes and `CurLabel = 1`, run the nested loops. -/
def buildLabels (dests : List Nat) : List Nat :=
  buildLabelsAux dests dests (dests.map fun _ => 0) 1

/-! Specification-side description of the same labels, used to state the
corrected claim about `CaseLabelMap`: labels follow the first-occurrence
order of the destination operands. -/

/-- Accumulating first-occurrence deduplication. -/
def firstDedupAux : List Nat → List Nat → List Nat
  | acc, [] => acc
  | acc, d :: l => firstDedupAux (if d ∈ acc then acc else acc ++ [d]) l

/-- Distinct destination operands in first-occurrence order. -/
def firstDedup (l : List Nat) : List Nat :=
  firstDedupAux [] l

/-- Specification-side label of destination `d`: its 1-based position in the
first-occurrence order of the destination operands. -/
def specLabel (dests : List Nat) (d : Nat) : Nat :=
  (firstDedup dests).indexOf d + 1

/-! ### Switch distance records (source lines 205-220) -/

/-- Per-case loop of the switch instrumentation: for each case, emit
`insert_distance(CurId, Labels[Inc + 1], unsigned-cast-to-i32(Cond ^^^ CaseVal))`
and accumulate `DefaultDis += (Distance ≠ 0)`.  Returns the records in
emission order together with the final accumulator. -/
def switchCaseLoop (curId cond : Nat) (labels : List Nat) :
    Nat → Nat → List SwitchCase → List DistanceRecord × Nat
  | _, defaultDis, [] => ([], defaultDis)
  | inc, defaultDis, c :: rest =>
      let distance := (cond ^^^ c.value) % 2 ^ 32
      let notCovered := if distance ≠ 0 then 1 else 0
      let r := switchCaseLoop curId cond labels (inc + 1) (defaultDis + notCovered) rest
      (⟨curId, labels.getD (inc + 1) 0, distance⟩ :: r.1, r.2)

/-- Distance records emitted for a switch terminator: nothing when the
condition is wider than 64 bits; otherwise one record per case followed by
the default record `insert_distance(CurId, Labels[0], NumCases - DefaultDis)`. -/
def switchRecords (curId : Nat) (si : SwitchInfo) : List DistanceRecord :=
  if si.width ≤ 64 then
    let labels := buildLabels (destOperands si)
    let r := switchCaseLoop curId si.cond labels 0 0 si.cases
    r.1 ++ [⟨curId, labels.getD 0 0, si.cases.length - r.2⟩]
  else []

/-! ### Conditional-branch distance record (source lines 178-182, 223-239) -/

/-- The `IsConditionalBr` flag: set iff the terminator is a `BranchInst`
whose `isConditional()` holds.  A switch or any other terminator leaves it
unset. -/
def isConditionalBr : Term → Bool
  | Term.br c => c
  | _ => false

/-- Distance record emitted when the instruction immediately preceding the
terminator is an integer comparison feeding a conditional branch:
`insert_distance(CurId, 0, unsigned-cast-to-i32(A0 ^^^ A1))`, guarded by the
operand type being an integer of width at most 64 bits. -/
def icmpRecords (curId : Nat) (bb : BB) : List DistanceRecord :=
  match bb.body.getLast? with
  | some (Instr.icmp isInt w a0 a1) =>
      if isConditionalBr bb.term then
        if isInt then
          if w ≤ 64 then [⟨curId, 0, (a0 ^^^ a1) % 2 ^ 32⟩] else []
        else []
      else []
  | _ => []

/-- Switch records of a block, extracted from its terminator. -/
def switchRecordsOf (curId : Nat) (bb : BB) : List DistanceRecord :=
  match bb.term with
  | Term.switch si => switchRecords curId si
  | _ => []

/-! ### Layout of the instrumented block (source lines 133-134, 140-169, 242-243)

The outer `IRBuilder` is anchored at the block's first insertion point, so
everything it creates lands in creation order before the original first
instruction: the eight edge-coverage instructions and, last, the
`insert_block` call.  Distance instructions are created by separate builders
anchored at the `SwitchInst` (end of the block) or at the `ICmpInst`
(immediately before the terminator), landing there in creation order. -/

/-- Edge-coverage instructions, in the order the source creates them
(lines 146-169): load `__afl_prev_loc`, load `__afl_area_ptr`, xor with the
block's location constant, index the map, load the counter byte, add one,
store it back, store `cur_loc >> 1` into `__afl_prev_loc`.  The
`CreateZExt` of line 148 casts i32 to i32, folds to a no-op and inserts no
instruction, so eight instructions land in the block. -/
inductive EdgeOp where
  | loadPrevLoc
  | loadMapPtr
  | xorIdx
  | gepMapPtr
  | loadCounter
  | addCounter
  | storeCounter
  | storePrevLoc
  deriving DecidableEq, Repr

/-- Item of the instrumented block's instruction list.  Auxiliary
distance-computation arithmetic (the xor/cast/cmp/add instructions feeding a
call) is folded into the call item carrying the values it computes. -/
inductive Item where
  | edge (e : EdgeOp)
  | reporterCall (blockId : Nat)
  | distCall (r : DistanceRecord)
  | origInstr (ins : Instr)
  | termInstr (t : Term)
  deriving DecidableEq, Repr

/-- The eight edge-coverage instructions in creation order. -/
def edgeCovInstrs : List Item :=
  [Item.edge EdgeOp.loadPrevLoc, Item.edge EdgeOp.loadMapPtr,
   Item.edge EdgeOp.xorIdx, Item.edge EdgeOp.gepMapPtr,
   Item.edge EdgeOp.loadCounter, Item.edge EdgeOp.addCounter,
   Item.edge EdgeOp.storeCounter, Item.edge EdgeOp.storePrevLoc]

/-- Value of `BB.size()` when line 176 reads it: by that point lines 146-169
have already inserted the eight edge-coverage instructions at the block's
first insertion point, so the guard sees the original instruction count plus
eight.  (The `insert_block` call of lines 242-243 is created later.) -/
def sizeAtGuard (bb : BB) : Nat :=
  edgeCovInstrs.length + bb.size

/-- Tail of the instrumented block, from the original first instruction on.
The `BB.size() > 2` guard of line 176 tests `sizeAtGuard`, the size of the
already-instrumented block, never the original size.  Inside the guard the
conditional-branch distance call sits immediately before the final
comparison and the switch distance calls sit immediately before the
terminator.  When the original body is empty the instruction preceding the
terminator is the last edge-coverage store, never an `ICmpInst`, which is
why matching on the last original instruction is exact. -/
def blockTail (curId : Nat) (bb : BB) : List Item :=
  if sizeAtGuard bb > 2 then
    bb.body.dropLast.map Item.origInstr
      ++ (icmpRecords curId bb).map Item.distCall
      ++ (bb.body.getLast?.toList.map Item.origInstr)
      ++ (switchRecordsOf curId bb).map Item.distCall
      ++ [Item.termInstr bb.term]
  else
    bb.body.map Item.origInstr ++ [Item.termInstr bb.term]

/-- Full instruction list of a sampled, instrumented block: the eight
edge-coverage instructions, then the `insert_block` reporter call (created
last but at the same insertion point), then the tail. -/
def instrumentedLayout (curId : Nat) (bb : BB) : List Item :=
  edgeCovInstrs ++ [Item.reporterCall curId] ++ blockTail curId bb

/-- BlockIDs of the reporter calls occurring in one layout. -/
def layoutReporterIds (l : List Item) : List Nat :=
  l.filterMap fun i =>
    match i with
    | Item.reporterCall n => some n
    | _ => none

/-- Distance records of the distance calls occurring in one layout. -/
def layoutDistRecords (l : List Item) : List DistanceRecord :=
  l.filterMap fun i =>
    match i with
    | Item.distCall r => some r
    | _ => none

/-! ### The pass over the module (source lines 128-245) -/

/-- Modelled from the spec: `AFL_R(100)` (config.h, absent from `src/`)
draws a uniform random integer in `[0, 100)`; modelled as an arbitrary
pre-drawn natural reduced modulo 100.  A block of the module carries its
contents and its draw. -/
structure ModBlock where
  bb : BB
  draw : Nat
  deriving DecidableEq, Repr

/-- Sampling decision of source line 136: the block is instrumented iff
`AFL_R(100) < inst_ratio`. -/
def blockSampled (draw ratio : Nat) : Bool :=
  draw % 100 < ratio

/-- Main loop of the pass: visit the blocks in order; for each sampled
block, first increment `CurId` (source line 174) and then emit the block's
instrumentation with the incremented value.  `CurId` is a `u32`, so the
increment wraps modulo `2 ^ 32`; the value read back from the 4-byte file is
below `2 ^ 32` to begin with.  Returns the final counter and the layouts of
the sampled blocks in visitation order. -/
def runPass (ratio : Nat) : Nat → List ModBlock → Nat × List (List Item)
  | curId, [] => (curId, [])
  | curId, b :: rest =>
      if blockSampled b.draw ratio then
        let r := runPass ratio ((curId + 1) % 2 ^ 32) rest
        (r.1, instrumentedLayout ((curId + 1) % 2 ^ 32) b.bb :: r.2)
      else
        runPass ratio curId rest

/-- BlockIDs of all reporter calls emitted across a list of layouts, in
emission order. -/
def reporterIds : List (List Item) → List Nat
  | [] => []
  | l :: ls => layoutReporterIds l ++ reporterIds ls

/-! ### Instrumentation ratio (source lines 97-106) -/

/-- Decision of the instrumentation ratio: the environment value is absent
(`none`), or present and non-numeric (`some none`, `sscanf` matched
nothing), or present with the parsed unsigned value.  Absent means 100; a
failed parse, zero, or a value above 100 is fatal. -/
def ratioFromEnv : Option (Option Nat) → Except String Nat
  | none => Except.ok 100
  | some none => Except.error "Bad value of AFL_INST_RATIO"
  | some (some r) =>
      if r = 0 ∨ r > 100 then Except.error "Bad value of AFL_INST_RATIO"
      else Except.ok r

/-! ### Persistent ID counter (source lines 121-124 and 259-261) -/

/-- State of `/tmp/.cur_id` at pass start: unopenable, absent, or present
with the given byte contents. -/
inductive FileState where
  | unopenable
  | absent
  | present (bytes : List Nat)
  deriving DecidableEq, Repr

/-- Source line 122-123: `open("/tmp/.cur_id", O_RDWR | O_CREAT, 0600)`.
An absent file is created empty; a failed open is fatal. -/
def openIdFile : FileState → Except String (List Nat)
  | FileState.unopenable => Except.error "Unable to create /tmp/.cur_id"
  | FileState.absent => Except.ok []
  | FileState.present bs => Except.ok bs

/-- Little-endian 32-bit value of the first four bytes. -/
def le32 (bs : List Nat) : Nat :=
  bs.getD 0 0 + 256 * (bs.getD 1 0 + 256 * (bs.getD 2 0 + 256 * bs.getD 3 0))

/-- Source line 124: `read(Fd, &CurId, 4)` returns the number of available
bytes up to 4; fewer than 4 is fatal (`PFATAL("Short read /tmp/.cur_id")`),
otherwise `CurId` holds the 4 bytes read. -/
def readIdBytes (bs : List Nat) : Except String Nat :=
  if bs.length < 4 then Except.error "Short read /tmp/.cur_id"
  else Except.ok (le32 bs)

/-- Counter value the pass starts from, or the fatal error aborting it. -/
def passStartId (fs : FileState) : Except String Nat :=
  (openIdFile fs).bind readIdBytes

/-- Source lines 259-261: the final `write(Fd, &CurId, 4)`; writing fewer
than 4 bytes is fatal (`PFATAL("Short write .cur_id")`). -/
def passEndWrite (bytesWritten : Nat) : Except String Unit :=
  if bytesWritten < 4 then Except.error "Short write .cur_id"
  else Except.ok ()

/-- Whole-pass pipeline in source order: decide the ratio (lines 97-106),
open and read the counter (lines 121-124), then run the block loop
(lines 128-245). -/
def runModule (env : Option (Option Nat)) (fs : FileState)
    (blocks : List ModBlock) : Except String (Nat × List (List Item)) := do
  let ratio ← ratioFromEnv env
  let curId ← passStartId fs
  pure (runPass ratio curId blocks)

/-! ### Runtime semantics of the edge-coverage update (source lines 140-169) -/

/-- Modelled from the spec: `MAP_SIZE`, the fixed build-wide bitmap width
(defined in config.h, which is absent from `src/`); AFL's standard value
`2 ^ 16`.  Both `Location` and `PrevLocation` range over `[0, MAP_SIZE)`. -/
def MAP_SIZE : Nat :=
  2 ^ 16

/-- Runtime state touched by the emitted edge-coverage code: the
thread-local `__afl_prev_loc` and the shared byte bitmap. -/
structure EdgeState where
  prevLoc : Nat
  bitmap : Nat → Nat

/-- Runtime effect of the eight emitted instructions: index the bitmap with
`prev_loc XOR cur_loc`, increment that byte modulo `2 ^ 8` (i8 add 1), and
store `cur_loc >> 1` into `__afl_prev_loc`. -/
def edgeUpdate (st : EdgeState) (curLoc : Nat) : EdgeState :=
  let idx := st.prevLoc ^^^ curLoc
  { prevLoc := curLoc >>> 1,
    bitmap := fun i => if i = idx then (st.bitmap i + 1) % 2 ^ 8 else st.bitmap i }

/-! ## Helper lemmas -/

theorem layoutReporterIds_append (a b : List Item) :
    layoutReporterIds (a ++ b) = layoutReporterIds a ++ layoutReporterIds b := by
  simp [layoutReporterIds]

theorem layoutDistRecords_append (a b : List Item) :
    layoutDistRecords (a ++ b) = layoutDistRecords a ++ layoutDistRecords b := by
  simp [layoutDistRecords]

theorem layoutReporterIds_map_orig (l : List Instr) :
    layoutReporterIds (l.map Item.origInstr) = [] := by
  simp [layoutReporterIds]

theorem layoutReporterIds_map_dist (rs : List DistanceRecord) :
    layoutReporterIds (rs.map Item.distCall) = [] := by
  simp [layoutReporterIds]

theorem layoutDistRecords_map_orig (l : List Instr) :
    layoutDistRecords (l.map Item.origInstr) = [] := by
  simp [layoutDistRecords]

theorem layoutDistRecords_map_dist (rs : List DistanceRecord) :
    layoutDistRecords (rs.map Item.distCall) = rs := by
  rw [layoutDistRecords, List.filterMap_map]
  exact List.filterMap_some ..

theorem layoutDistRecords_term (t : Term) :
    layoutDistRecords [Item.termInstr t] = [] := rfl

theorem layoutReporterIds_term (t : Term) :
    layoutReporterIds [Item.termInstr t] = [] := rfl

theorem layoutReporterIds_blockTail (curId : Nat) (bb : BB) :
    layoutReporterIds (blockTail curId bb) = [] := by
  rw [layoutReporterIds, List.filterMap_eq_nil_iff]
  intro a ha
  cases a with
  | reporterCall n =>
      exfalso
      unfold blockTail at ha
      split at ha <;> simp only [List.mem_append, List.mem_map, List.mem_singleton] at ha
      · rcases ha with ((((⟨_, _, h⟩ | ⟨_, _, h⟩) | ⟨_, _, h⟩) | ⟨_, _, h⟩) | h) <;>
          exact Item.noConfusion h
      · rcases ha with ⟨_, _, h⟩ | h <;> exact Item.noConfusion h
  | edge e => rfl
  | distCall r => rfl
  | origInstr i => rfl
  | termInstr t => rfl

theorem sizeAtGuard_gt_two (bb : BB) : 2 < sizeAtGuard bb := by
  simp only [sizeAtGuard, edgeCovInstrs, List.length_cons, List.length_nil, BB.size]
  omega

theorem layoutDistRecords_blockTail (curId : Nat) (bb : BB) :
    layoutDistRecords (blockTail curId bb)
      = icmpRecords curId bb ++ switchRecordsOf curId bb := by
  unfold blockTail
  rw [if_pos (sizeAtGuard_gt_two bb)]
  rw [layoutDistRecords_append, layoutDistRecords_append, layoutDistRecords_append,
    layoutDistRecords_append, layoutDistRecords_map_dist, layoutDistRecords_map_dist,
    layoutDistRecords_map_orig, layoutDistRecords_term]
  have : layoutDistRecords (bb.body.getLast?.toList.map Item.origInstr) = [] :=
    layoutDistRecords_map_orig _
  rw [this]
  simp

theorem layoutReporterIds_instrumented (curId : Nat) (bb : BB) :
    layoutReporterIds (instrumentedLayout curId bb) = [curId] := by
  rw [instrumentedLayout, layoutReporterIds_append, layoutReporterIds_append,
    layoutReporterIds_blockTail]
  rfl

theorem layoutDistRecords_instrumented (curId : Nat) (bb : BB) :
    layoutDistRecords (instrumentedLayout curId bb)
      = icmpRecords curId bb ++ switchRecordsOf curId bb := by
  rw [instrumentedLayout, layoutDistRecords_append, layoutDistRecords_append,
    layoutDistRecords_blockTail]
  rfl

theorem range'_map_mod (a n m : Nat) :
    (List.range' (a % m + 1) n).map (fun i => i % m)
      = (List.range' (a + 1) n).map (fun i => i % m) := by
  apply List.ext_getElem
  · simp
  · intro j h1 h2
    simp only [List.getElem_map, List.getElem_range', Nat.one_mul]
    have harith1 : a % m + 1 + j = a % m + (1 + j) := by omega
    have harith2 : a + 1 + j = a + (1 + j) := by omega
    rw [harith1, harith2, Nat.mod_add_mod]

theorem range'_map_mod_eq (a n m : Nat) (h : a + n ≤ m) :
    (List.range' a n).map (fun i => i % m) = List.range' a n := by
  apply List.ext_getElem
  · simp
  · intro j h1 h2
    have hj : j < n := by simpa using h2
    simp only [List.getElem_map, List.getElem_range', Nat.one_mul]
    exact Nat.mod_eq_of_lt (by omega)

theorem range'_map_mod_nodup (a n m : Nat) (h : n ≤ m) :
    ((List.range' a n).map (fun i => i % m)).Nodup := by
  apply List.Nodup.map_on ?_ (List.nodup_range' a n)
  intro x hx y hy hxy
  rw [List.mem_range'_1] at hx hy
  rcases Nat.le_total x y with hle | hle
  · rcases Nat.eq_or_lt_of_le hle with rfl | hlt
    · rfl
    · exfalso
      have hdvd : m ∣ y - x := (Nat.modEq_iff_dvd' hle).1 hxy
      have hpos : 0 < y - x := by omega
      have := Nat.le_of_dvd hpos hdvd
      omega
  · rcases Nat.eq_or_lt_of_le hle with rfl | hlt
    · rfl
    · exfalso
      have hdvd : m ∣ x - y := (Nat.modEq_iff_dvd' hle).1 hxy.symm
      have hpos : 0 < x - y := by omega
      have := Nat.le_of_dvd hpos hdvd
      omega

theorem runPass_fst (ratio : Nat) (blocks : List ModBlock) :
    ∀ s : Nat, s < 2 ^ 32 → (runPass ratio s blocks).1
      = (s + blocks.countP (fun b => blockSampled b.draw ratio)) % 2 ^ 32 := by
  induction blocks with
  | nil =>
      intro s hs
      simp only [runPass, List.countP_nil, Nat.add_zero]
      exact (Nat.mod_eq_of_lt hs).symm
  | cons b rest ih =>
      intro s hs
      by_cases h : blockSampled b.draw ratio
      · have hlt : (s + 1) % 2 ^ 32 < 2 ^ 32 := Nat.mod_lt _ (by norm_num)
        have harith : (s + 1) % 2 ^ 32 + rest.countP (fun b => blockSampled b.draw ratio)
            = (s + 1) % 2 ^ 32 + 1 * rest.countP (fun b => blockSampled b.draw ratio) := by
          omega
        simp only [runPass, h, if_true, List.countP_cons, if_pos]
        rw [ih ((s + 1) % 2 ^ 32) hlt, Nat.mod_add_mod]
        congr 1
        omega
      · simp [runPass, h, ih s hs, List.countP_cons]

theorem runPass_reporterIds (ratio : Nat) (blocks : List ModBlock) :
    ∀ s : Nat, reporterIds (runPass ratio s blocks).2
      = (List.range' (s + 1) (blocks.countP (fun b => blockSampled b.draw ratio))).map
          (fun i => i % 2 ^ 32) := by
  induction blocks with
  | nil => intro s; simp [runPass, reporterIds]
  | cons b rest ih =>
      intro s
      by_cases h : blockSampled b.draw ratio
      · simp only [runPass, h, if_true, reporterIds, layoutReporterIds_instrumented,
          List.countP_cons, h, if_pos]
        rw [ih ((s + 1) % 2 ^ 32)]
        rw [range'_map_mod (s + 1) _ (2 ^ 32)]
        simp [List.range'_succ]
      · simp [runPass, h, List.countP_cons, ih s]

theorem runPass_length (ratio : Nat) (blocks : List ModBlock) :
    ∀ s : Nat, (runPass ratio s blocks).2.length
      = blocks.countP (fun b => blockSampled b.draw ratio) := by
  induction blocks with
  | nil => intro s; simp [runPass]
  | cons b rest ih =>
      intro s
      by_cases h : blockSampled b.draw ratio
      · simp [runPass, h, ih, List.countP_cons]
      · simp [runPass, h, ih, List.countP_cons]

theorem runPass_layouts (ratio : Nat) (blocks : List ModBlock) :
    ∀ s : Nat, ∀ l ∈ (runPass ratio s blocks).2,
      ∃ curId bb, l = instrumentedLayout curId bb := by
  induction blocks with
  | nil => intro s l hl; simp [runPass] at hl
  | cons b rest ih =>
      intro s l hl
      by_cases h : blockSampled b.draw ratio
      · simp only [runPass, h, if_true, List.mem_cons] at hl
        rcases hl with rfl | hl
        · exact ⟨(s + 1) % 2 ^ 32, b.bb, rfl⟩
        · exact ih ((s + 1) % 2 ^ 32) l hl
      · simp only [runPass, h, if_false] at hl
        exact ih s l hl

theorem switchCaseLoop_dist (curId cond : Nat) (labels : List Nat) :
    ∀ (cs : List SwitchCase) (inc dd : Nat),
      ((switchCaseLoop curId cond labels inc dd cs).1).map DistanceRecord.distance
        = cs.map (fun c => (cond ^^^ c.value) % 2 ^ 32) := by
  intro cs
  induction cs with
  | nil => intro inc dd; rfl
  | cons c rest ih => intro inc dd; simp [switchCaseLoop, ih]

theorem switchCaseLoop_snd (curId cond : Nat) (labels : List Nat) :
    ∀ (cs : List SwitchCase) (inc dd : Nat),
      (switchCaseLoop curId cond labels inc dd cs).2
        = dd + cs.countP (fun c => (cond ^^^ c.value) % 2 ^ 32 ≠ 0) := by
  intro cs
  induction cs with
  | nil => intro inc dd; simp [switchCaseLoop]
  | cons c rest ih =>
      intro inc dd
      simp [switchCaseLoop, ih, List.countP_cons]
      split <;> omega

theorem switchCaseLoop_labels (curId cond : Nat) (labels : List Nat) :
    ∀ (cs : List SwitchCase) (inc dd : Nat),
      ((switchCaseLoop curId cond labels inc dd cs).1).map DistanceRecord.caseLabel
        = (List.range cs.length).map (fun i => labels.getD (inc + 1 + i) 0) := by
  intro cs
  induction cs with
  | nil => intro inc dd; rfl
  | cons c rest ih =>
      intro inc dd
      have harith : ∀ i : Nat, inc + 1 + (i + 1) = inc + 1 + 1 + i := by omega
      simp only [switchCaseLoop, List.map_cons, List.length_cons, List.range_succ_eq_map,
        List.map_map, ih (inc + 1)]
      congr 1
      apply List.map_congr_left
      intro a _
      simp only [Function.comp_apply]
      rw [harith a]

theorem switchCaseLoop_blockId (curId cond : Nat) (labels : List Nat) :
    ∀ (cs : List SwitchCase) (inc dd : Nat),
      ∀ r ∈ (switchCaseLoop curId cond labels inc dd cs).1, r.blockId = curId := by
  intro cs
  induction cs with
  | nil => intro inc dd r hr; simp [switchCaseLoop] at hr
  | cons c rest ih =>
      intro inc dd r hr
      simp only [switchCaseLoop, List.mem_cons] at hr
      rcases hr with rfl | hr
      · rfl
      · exact ih (inc + 1) _ r hr

theorem switchRecords_blockId (curId : Nat) (si : SwitchInfo) :
    ∀ r ∈ switchRecords curId si, r.blockId = curId := by
  intro r hr
  unfold switchRecords at hr
  split at hr
  · simp only [List.mem_append, List.mem_singleton] at hr
    rcases hr with hr | rfl
    · exact switchCaseLoop_blockId _ _ _ _ _ _ r hr
    · rfl
  · simp at hr

theorem switchRecordsOf_blockId (curId : Nat) (bb : BB) :
    ∀ r ∈ switchRecordsOf curId bb, r.blockId = curId := by
  intro r hr
  unfold switchRecordsOf at hr
  split at hr
  · exact switchRecords_blockId _ _ r hr
  · simp at hr

theorem icmpRecords_blockId (curId : Nat) (bb : BB) :
    ∀ r ∈ icmpRecords curId bb, r.blockId = curId := by
  intro r hr
  unfold icmpRecords at hr
  split at hr
  · split at hr
    · split at hr
      · split at hr
        · simp only [List.mem_singleton] at hr
          subst hr
          rfl
        · simp at hr
      · simp at hr
    · simp at hr
  · simp at hr

theorem xor_mod_two_pow (a b n : Nat) :
    (a ^^^ b) % 2 ^ n = a % 2 ^ n ^^^ b % 2 ^ n := by
  apply Nat.eq_of_testBit_eq
  intro i
  simp only [Nat.testBit_mod_two_pow, Nat.testBit_xor]
  by_cases h : i < n <;> simp [h]

theorem xor_mod_eq_zero_iff (a b n : Nat) :
    (a ^^^ b) % 2 ^ n = 0 ↔ a % 2 ^ n = b % 2 ^ n := by
  rw [xor_mod_two_pow]
  exact Nat.xor_eq_zero

theorem firstDedupAux_append (P Q acc : List Nat) :
    firstDedupAux acc (P ++ Q) = firstDedupAux (firstDedupAux acc P) Q := by
  induction P generalizing acc with
  | nil => rfl
  | cons d P ih => simp only [List.cons_append, firstDedupAux]; exact ih _

theorem firstDedupAux_extend (l : List Nat) :
    ∀ acc : List Nat, ∃ t, firstDedupAux acc l = acc ++ t := by
  induction l with
  | nil => intro acc; exact ⟨[], by simp [firstDedupAux]⟩
  | cons d l ih =>
      intro acc
      by_cases h : d ∈ acc
      · obtain ⟨t, ht⟩ := ih acc
        exact ⟨t, by simp [firstDedupAux, h, ht]⟩
      · obtain ⟨t, ht⟩ := ih (acc ++ [d])
        exact ⟨d :: t, by simp [firstDedupAux, h, ht]⟩

theorem mem_firstDedupAux (l : List Nat) :
    ∀ (acc : List Nat) (d : Nat), d ∈ firstDedupAux acc l ↔ d ∈ acc ∨ d ∈ l := by
  induction l with
  | nil => intro acc d; simp [firstDedupAux]
  | cons e l ih =>
      intro acc d
      by_cases h : e ∈ acc
      · rw [firstDedupAux, if_pos h, ih, List.mem_cons]
        constructor
        · rintro (hacc | hl)
          · exact Or.inl hacc
          · exact Or.inr (Or.inr hl)
        · rintro (hacc | rfl | hl)
          · exact Or.inl hacc
          · exact Or.inl h
          · exact Or.inr hl
      · rw [firstDedupAux, if_neg h, ih, List.mem_append, List.mem_singleton, List.mem_cons,
          or_assoc]

theorem mem_firstDedup (l : List Nat) (d : Nat) : d ∈ firstDedup l ↔ d ∈ l := by
  rw [firstDedup, mem_firstDedupAux]
  simp

theorem firstDedup_append_indexOf (P Q : List Nat) (d : Nat) (h : d ∈ P) :
    (firstDedup (P ++ Q)).indexOf d = (firstDedup P).indexOf d := by
  rw [firstDedup, firstDedupAux_append]
  obtain ⟨t, ht⟩ := firstDedupAux_extend Q (firstDedupAux [] P)
  rw [ht]
  exact List.indexOf_append_of_mem ((mem_firstDedup P d).2 h)

theorem specLabel_of_mem (P Q : List Nat) (d : Nat) (h : d ∈ P) :
    specLabel (P ++ Q) d = specLabel P d := by
  rw [specLabel, specLabel, firstDedup_append_indexOf P Q d h]

theorem firstDedup_snoc_mem (P : List Nat) (d : Nat) (h : d ∈ P) :
    firstDedup (P ++ [d]) = firstDedup P := by
  rw [firstDedup, firstDedupAux_append]
  show firstDedupAux (firstDedup P) [d] = firstDedup P
  simp [firstDedupAux, (mem_firstDedup P d).2 h]

theorem firstDedup_snoc_not_mem (P : List Nat) (d : Nat) (h : d ∉ P) :
    firstDedup (P ++ [d]) = firstDedup P ++ [d] := by
  rw [firstDedup, firstDedupAux_append]
  show firstDedupAux (firstDedup P) [d] = firstDedup P ++ [d]
  have : d ∉ firstDedup P := fun hc => h ((mem_firstDedup P d).1 hc)
  simp [firstDedupAux, this]

theorem specLabel_new (P Q : List Nat) (d : Nat) (h : d ∉ P) :
    specLabel (P ++ d :: Q) d = (firstDedup P).length + 1 := by
  have hassoc : P ++ d :: Q = (P ++ [d]) ++ Q := by simp
  rw [specLabel, hassoc, firstDedup_append_indexOf (P ++ [d]) Q d (by simp),
    firstDedup_snoc_not_mem P d h,
    List.indexOf_append_of_not_mem (fun hc => h ((mem_firstDedup P d).1 hc)),
    List.indexOf_cons_self]

theorem specLabel_pos (dests : List Nat) (d : Nat) : 1 ≤ specLabel dests d := by
  rw [specLabel]
  omega

theorem labelInner_length (dI cur : Nat) (ds ls : List Nat) :
    (labelInner dI cur (ds.zip ls)).length = min ds.length ls.length := by
  simp [labelInner]

theorem labelInner_getElem (dI cur : Nat) (ds ls : List Nat) (j : Nat)
    (h1 : j < ds.length) (h2 : j < ls.length)
    (hl : j < (labelInner dI cur (ds.zip ls)).length) :
    (labelInner dI cur (ds.zip ls))[j]
      = if ds[j] = dI ∧ ls[j] = 0 then cur else ls[j] := by
  simp [labelInner, List.getElem_zip]

theorem labelUpdated_iff (dI : Nat) (ds ls : List Nat) :
    labelUpdated dI (ds.zip ls) = true
      ↔ ∃ (j : Nat) (h1 : j < ds.length) (h2 : j < ls.length),
          ds[j] = dI ∧ ls[j] = 0 := by
  rw [labelUpdated, List.any_eq_true]
  constructor
  · rintro ⟨p, hp, hcond⟩
    obtain ⟨j, hj, hget⟩ := List.getElem_of_mem hp
    have hj1 : j < ds.length := by
      have := hj
      simp [List.length_zip] at this
      omega
    have hj2 : j < ls.length := by
      have := hj
      simp [List.length_zip] at this
      omega
    refine ⟨j, hj1, hj2, ?_⟩
    rw [List.getElem_zip] at hget
    rw [← hget] at hcond
    simpa using hcond
  · rintro ⟨j, h1, h2, hdj, hlj⟩
    refine ⟨(ds[j], ls[j]), ?_, by simp [hdj, hlj]⟩
    have hj : j < (ds.zip ls).length := by simp [List.length_zip]; omega
    have := List.getElem_mem hj
    rwa [List.getElem_zip] at this

theorem buildLabelsAux_invariant (dests : List Nat) :
    ∀ (todo P labels : List Nat) (cur : Nat),
      dests = P ++ todo →
      labels.length = dests.length →
      (∀ (j : Nat) (h1 : j < dests.length) (h2 : j < labels.length),
        labels[j] = if dests[j] ∈ P then specLabel dests dests[j] else 0) →
      cur = (firstDedup P).length + 1 →
      buildLabelsAux dests todo labels cur = dests.map (specLabel dests) := by
  intro todo
  induction todo with
  | nil =>
      intro P labels cur hPQ hlen hinv _
      have hP : P = dests := by simpa using hPQ.symm
      subst hP
      rw [buildLabelsAux]
      apply List.ext_getElem
      · simp [hlen]
      · intro j h1 h2
        have hj : j < P.length := by omega
        rw [hinv j hj h1, List.getElem_map]
        exact if_pos (List.getElem_mem hj)
  | cons dI todo ih =>
      intro P labels cur hPQ hlen hinv hcur
      rw [buildLabelsAux]
      have hlen' : (labelInner dI cur (dests.zip labels)).length = dests.length := by
        rw [labelInner_length]
        omega
      by_cases hmem : dI ∈ P
      · -- the destination was already labelled in an earlier outer iteration
        have hnz : ∀ (j : Nat) (h1 : j < dests.length) (h2 : j < labels.length),
            dests[j] = dI → labels[j] ≠ 0 := by
          intro j h1 h2 hd
          rw [hinv j h1 h2, hd, if_pos hmem]
          have := specLabel_pos dests dI
          omega
        have hupd : labelUpdated dI (dests.zip labels) = false := by
          rw [← Bool.not_eq_true, labelUpdated_iff]
          rintro ⟨j, h1, h2, hdj, hlj⟩
          exact hnz j h1 h2 hdj hlj
        have hlab : labelInner dI cur (dests.zip labels) = labels := by
          apply List.ext_getElem
          · omega
          · intro j h1 h2
            have hd1 : j < dests.length := by omega
            rw [labelInner_getElem dI cur dests labels j hd1 (by omega) (by omega)]
            by_cases hdj : dests[j] = dI
            · rw [if_neg]
              rintro ⟨_, hc⟩
              exact hnz j hd1 (by omega) hdj hc
            · rw [if_neg]
              rintro ⟨hc, _⟩
              exact hdj hc
        rw [hupd, if_neg (by simp), hlab]
        apply ih (P ++ [dI]) labels cur
        · rw [hPQ]
          simp
        · exact hlen
        · intro j h1 h2
          rw [hinv j h1 h2]
          by_cases hj : dests[j] ∈ P
          · rw [if_pos hj, if_pos (by simp [hj])]
          · rw [if_neg hj, if_neg]
            simp only [List.mem_append, List.mem_singleton]
            rintro (hc | hc)
            · exact hj hc
            · rw [hc] at hj
              exact hj hmem
        · rw [firstDedup_snoc_mem P dI hmem]
          exact hcur
      · -- a fresh destination: it (and its duplicates) get label `cur`
        have hj0 : P.length < dests.length := by
          rw [hPQ, List.length_append, List.length_cons]
          omega
        have hjl : P.length < labels.length := by omega
        have hdj0 : dests[P.length] = dI := List.getElem_of_append hPQ rfl
        have hlj0 : labels[P.length] = 0 := by
          rw [hinv P.length hj0 (by omega), hdj0, if_neg hmem]
        have hupd : labelUpdated dI (dests.zip labels) = true := by
          rw [labelUpdated_iff]
          exact ⟨P.length, hj0, by omega, hdj0, hlj0⟩
        rw [hupd, if_pos rfl]
        apply ih (P ++ [dI]) (labelInner dI cur (dests.zip labels)) (cur + 1)
        · rw [hPQ]
          simp
        · exact hlen'
        · intro j h1 h2
          have hd2 : j < labels.length := by omega
          rw [labelInner_getElem dI cur dests labels j h1 hd2 (by omega)]
          by_cases hjP : dests[j] ∈ P
          · have hne : labels[j] ≠ 0 := by
              rw [hinv j h1 hd2, if_pos hjP]
              have := specLabel_pos dests dests[j]
              omega
            rw [if_neg (by rintro ⟨_, hc⟩; exact hne hc), hinv j h1 hd2, if_pos hjP,
              if_pos (by simp [hjP])]
          · by_cases hdj : dests[j] = dI
            · have hz : labels[j] = 0 := by
                rw [hinv j h1 hd2, if_neg hjP]
              rw [if_pos ⟨hdj, hz⟩, if_pos (by simp [hdj]), hdj, hcur]
              rw [hPQ]
              exact (specLabel_new P todo dI hmem).symm
            · have hz : labels[j] = 0 := by
                rw [hinv j h1 hd2, if_neg hjP]
              rw [if_neg (by rintro ⟨hc, _⟩; exact hdj hc), hz, if_neg]
              simp only [List.mem_append, List.mem_singleton]
              rintro (hc | hc)
              · exact hjP hc
              · exact hdj hc
        · rw [firstDedup_snoc_not_mem P dI hmem, List.length_append]
          simp [hcur]

theorem buildLabels_eq_spec (dests : List Nat) :
    buildLabels dests = dests.map (specLabel dests) := by
  apply buildLabelsAux_invariant dests dests [] (dests.map fun _ => 0) 1
  · simp
  · simp
  · intro j h1 h2
    simp [List.getElem_map]
  · rfl

theorem specLabel_head (d : Nat) (rest : List Nat) : specLabel (d :: rest) d = 1 := by
  rw [specLabel]
  have : firstDedup (d :: rest) = firstDedupAux [d] rest := by
    rw [firstDedup, firstDedupAux]
    simp
  obtain ⟨t, ht⟩ := firstDedupAux_extend rest [d]
  rw [this, ht]
  have : ([d] ++ t).indexOf d = 0 := by
    rw [List.indexOf_append_of_mem (by simp), List.indexOf_cons_self]
  rw [this]

/-! ## Claim theorems -/

/-- C3: for every instrumented switch over a value of width at most 64 bits,
one DistanceRecord per case is emitted in declaration order with distance
equal to the unsigned 32-bit cast of (condition XOR caseConstant), followed
by a final default record whose distance equals numCases minus the number of
cases with a nonzero distance; switches over values wider than 64 bits emit
no records at all. -/
theorem switch_distance_records (curId : Nat) (si : SwitchInfo) :
    (si.width ≤ 64 →
      (switchRecords curId si).map DistanceRecord.distance
        = si.cases.map (fun c => (si.cond ^^^ c.value) % 2 ^ 32)
          ++ [si.cases.length
              - si.cases.countP (fun c => (si.cond ^^^ c.value) % 2 ^ 32 ≠ 0)]) ∧
    (64 < si.width → switchRecords curId si = []) := by
  constructor
  · intro h
    simp only [switchRecords, if_pos h]
    rw [List.map_append, switchCaseLoop_dist, List.map_singleton,
      switchCaseLoop_snd]
    simp
  · intro h
    rw [switchRecords, if_neg (by omega)]

/-- Witness for C3 at the spec's example: case values `[10, 20, 10, 30]`
against runtime condition `10` give distances `[0, 30, 0, 20]` and default
distance `4 - 2 = 2`. -/
theorem switch_distance_records_witness :
    (switchRecords 7 ⟨32, 10, 0, [⟨10, 1⟩, ⟨20, 2⟩, ⟨10, 3⟩, ⟨30, 4⟩]⟩).map
        DistanceRecord.distance
      = [0, 30, 0, 20, 2] := by
  have h := (switch_distance_records 7 ⟨32, 10, 0, [⟨10, 1⟩, ⟨20, 2⟩, ⟨10, 3⟩, ⟨30, 4⟩]⟩).1
    (by decide)
  rw [h]
  decide

/-- C8: the claim (and the spec sentence behind it) is contradicted by the
code: line 176 reads `BB.size()` only after the eight edge-coverage
instructions were inserted, so the `> 2` guard always passes.  A sampled
block of 2 original instructions `[icmp; cond-br]` does get a distance
record, and a bare one-instruction `[switch]` block gets its switch records.
The first conjunct shows the guard is vacuous for every block; the others
evaluate the code at the failing inputs. -/
theorem small_block_distance_emitted :
    (∀ bb : BB, 2 < sizeAtGuard bb)
    ∧ (⟨[Instr.icmp true 32 1 2], Term.br true⟩ : BB).size ≤ 2
    ∧ layoutDistRecords (instrumentedLayout 3 ⟨[Instr.icmp true 32 1 2], Term.br true⟩)
        = [⟨3, 0, 3⟩]
    ∧ (⟨[], Term.switch ⟨32, 5, 0, [⟨5, 1⟩]⟩⟩ : BB).size ≤ 2
    ∧ layoutDistRecords (instrumentedLayout 1 ⟨[], Term.switch ⟨32, 5, 0, [⟨5, 1⟩]⟩⟩)
        = [⟨1, 2, 0⟩, ⟨1, 1, 1⟩] := by
  refine ⟨sizeAtGuard_gt_two, by decide, by decide, by decide, by decide⟩

/-- C6: for every sampled block, the emitted edge-coverage code computes
`idx = PrevLocation XOR Location`; when both lie in `[0, MAP_SIZE)` the index
is below `MAP_SIZE`, the byte at `bitmap[idx]` is incremented with wraparound
modulo `2 ^ 8`, other bytes are untouched, and afterwards `PrevLocation`
holds `Location >> 1`. -/
theorem edge_coverage_update (st : EdgeState) (loc : Nat)
    (h1 : st.prevLoc < MAP_SIZE) (h2 : loc < MAP_SIZE) :
    st.prevLoc ^^^ loc < MAP_SIZE
    ∧ (edgeUpdate st loc).bitmap (st.prevLoc ^^^ loc)
        = (st.bitmap (st.prevLoc ^^^ loc) + 1) % 2 ^ 8
    ∧ (∀ i, i ≠ st.prevLoc ^^^ loc → (edgeUpdate st loc).bitmap i = st.bitmap i)
    ∧ (edgeUpdate st loc).prevLoc = loc >>> 1 := by
  refine ⟨Nat.xor_lt_two_pow h1 h2, ?_, ?_, rfl⟩
  · simp [edgeUpdate]
  · intro i hi
    simp [edgeUpdate, hi]

/-- Witness for C6 at `PrevLocation = 3`, `Location = 5`. -/
theorem edge_coverage_update_witness :
    (⟨3, fun _ => 0⟩ : EdgeState).prevLoc ^^^ 5 < MAP_SIZE
    ∧ (edgeUpdate ⟨3, fun _ => 0⟩ 5).bitmap ((⟨3, fun _ => 0⟩ : EdgeState).prevLoc ^^^ 5)
        = ((⟨3, fun _ => 0⟩ : EdgeState).bitmap ((⟨3, fun _ => 0⟩ : EdgeState).prevLoc ^^^ 5)
            + 1) % 2 ^ 8
    ∧ (∀ i, i ≠ (⟨3, fun _ => 0⟩ : EdgeState).prevLoc ^^^ 5 →
        (edgeUpdate ⟨3, fun _ => 0⟩ 5).bitmap i = (⟨3, fun _ => 0⟩ : EdgeState).bitmap i)
    ∧ (edgeUpdate ⟨3, fun _ => 0⟩ 5).prevLoc = 5 >>> 1 :=
  edge_coverage_update ⟨3, fun _ => 0⟩ 5 (by decide) (by decide)

/-- C7: the instrumentation ratio defaults to 100 when the environment value
is absent; a present but non-numeric or out-of-range value (including 0)
aborts the pass fatally before any function is processed; otherwise a block
is instrumented iff its uniform draw from `[0, 100)` is strictly below the
ratio, so ratio 100 samples every block. -/
theorem sampling_policy :
    ratioFromEnv none = Except.ok 100
    ∧ (∀ fs blocks, runModule (some none) fs blocks
        = Except.error "Bad value of AFL_INST_RATIO")
    ∧ (∀ r fs blocks, r = 0 ∨ 100 < r → runModule (some (some r)) fs blocks
        = Except.error "Bad value of AFL_INST_RATIO")
    ∧ (∀ r, 1 ≤ r → r ≤ 100 → ratioFromEnv (some (some r)) = Except.ok r)
    ∧ (∀ draw, blockSampled draw 100 = true)
    ∧ (∀ ratio s blocks, (runPass ratio s blocks).2.length
        = blocks.countP fun b => blockSampled b.draw ratio)
    ∧ (∀ s blocks, (runPass 100 s blocks).2.length = blocks.length) := by
  refine ⟨rfl, fun fs blocks => rfl, ?_, ?_, ?_, ?_, ?_⟩
  · intro r fs blocks h
    have hr : ratioFromEnv (some (some r)) = Except.error "Bad value of AFL_INST_RATIO" := by
      rw [ratioFromEnv, if_pos h]
    simp only [runModule, hr]
    rfl
  · intro r h1 h2
    rw [ratioFromEnv, if_neg (by omega)]
  · intro draw
    simp [blockSampled]
    exact Nat.mod_lt draw (by omega)
  · intro ratio s blocks
    exact runPass_length ratio blocks s
  · intro s blocks
    rw [runPass_length]
    rw [List.countP_eq_length]
    intro b _
    simp [blockSampled]
    exact Nat.mod_lt b.draw (by omega)

/-- Witness for C7: ratio 101 aborts, ratio 50 is accepted, and with ratio
100 a singleton module is fully sampled. -/
theorem sampling_policy_witness :
    runModule (some (some 101)) FileState.absent [] = Except.error "Bad value of AFL_INST_RATIO"
    ∧ ratioFromEnv (some (some 50)) = Except.ok 50
    ∧ (runPass 100 0 [⟨⟨[], Term.other⟩, 37⟩]).2.length = 1 :=
  ⟨sampling_policy.2.2.1 101 FileState.absent [] (by decide),
   sampling_policy.2.2.2.1 50 (by decide) (by decide),
   sampling_policy.2.2.2.2.2.2 0 [⟨⟨[], Term.other⟩, 37⟩]⟩

/-- C5 counterexample: with the counter file absent (or holding fewer than 4
bytes) the pass does NOT proceed with counter 0 — the 4-byte read comes up
short and the pass aborts fatally. -/
theorem counter_file_counterexample :
    passStartId FileState.absent = Except.error "Short read /tmp/.cur_id"
    ∧ passStartId (FileState.present [7]) = Except.error "Short read /tmp/.cur_id"
    ∧ passStartId FileState.absent ≠ Except.ok 0 := by
  refine ⟨rfl, rfl, ?_⟩
  intro h
  exact Except.noConfusion h

/-- C5 amended: an absent counter file (created empty by the open) or one
holding fewer than 4 bytes makes the pass abort fatally with a short read,
exactly as an unopenable file does; the pass proceeds only when 4 bytes are
available, taking the counter from them, and a short final write is fatal. -/
theorem counter_file_fatal_policy :
    passStartId FileState.unopenable = Except.error "Unable to create /tmp/.cur_id"
    ∧ passStartId FileState.absent = Except.error "Short read /tmp/.cur_id"
    ∧ (∀ bs, bs.length < 4 → passStartId (FileState.present bs)
        = Except.error "Short read /tmp/.cur_id")
    ∧ (∀ bs, 4 ≤ bs.length → passStartId (FileState.present bs) = Except.ok (le32 bs))
    ∧ (∀ k, k < 4 → passEndWrite k = Except.error "Short write .cur_id")
    ∧ passEndWrite 4 = Except.ok () := by
  refine ⟨rfl, rfl, ?_, ?_, ?_, rfl⟩
  · intro bs h
    simp only [passStartId, openIdFile, Except.bind, readIdBytes]
    rw [if_pos h]
  · intro bs h
    simp only [passStartId, openIdFile, Except.bind, readIdBytes]
    rw [if_neg (by omega)]
  · intro k h
    rw [passEndWrite, if_pos h]

/-- Witness for C5: three bytes are fatal, four bytes yield the little-endian
counter 258, and a 3-byte final write is fatal. -/
theorem counter_file_fatal_policy_witness :
    passStartId (FileState.present [1, 0, 0]) = Except.error "Short read /tmp/.cur_id"
    ∧ passStartId (FileState.present [2, 1, 0, 0]) = Except.ok 258
    ∧ passEndWrite 3 = Except.error "Short write .cur_id" := by
  refine ⟨counter_file_fatal_policy.2.2.1 [1, 0, 0] (by decide), ?_,
    counter_file_fatal_policy.2.2.2.2.1 3 (by decide)⟩
  have h := counter_file_fatal_policy.2.2.2.1 [2, 1, 0, 0] (by decide)
  rw [h]
  rfl

/-- C2 counterexample: with prior counter 0 and one sampled block, the claim
predicts BlockID set `{0}`, but the counter is incremented before use, so the
emitted reporter call carries BlockID 1 and 0 is never issued.  Moreover the
counter is a `u32`: starting from the realizable file value `2 ^ 32 - 1`
(bytes FF FF FF FF) the single sampled block gets BlockID 0 and the counter
wraps to 0, contradicting an unbounded reading of the claim as well. -/
theorem block_ids_counterexample :
    reporterIds (runPass 100 0 [⟨⟨[], Term.other⟩, 0⟩]).2 = [1]
    ∧ (0 : Nat) ∉ reporterIds (runPass 100 0 [⟨⟨[], Term.other⟩, 0⟩]).2
    ∧ reporterIds (runPass 100 (2 ^ 32 - 1) [⟨⟨[], Term.other⟩, 0⟩]).2 = [0]
    ∧ (runPass 100 (2 ^ 32 - 1) [⟨⟨[], Term.other⟩, 0⟩]).1 = 0 := by
  refine ⟨rfl, by decide, rfl, rfl⟩

/-- C2 amended: the allocator increments the in-memory 32-bit counter,
wrapping modulo `2 ^ 32`, and then uses it, so a pass starting from counter
`prior` with `totalSampled` sampled blocks emits exactly the BlockIDs
`(prior + 1) % 2 ^ 32, ..., (prior + totalSampled) % 2 ^ 32` in visitation
order and writes back `(prior + totalSampled) % 2 ^ 32` (the file-read
`prior` is below `2 ^ 32`).  Whenever `prior + totalSampled < 2 ^ 32` —
every build that does not exhaust the 32-bit space — these are exactly
`{prior + 1, ..., prior + totalSampled}`, pairwise distinct and strictly
increasing in block-visitation order. -/
theorem block_ids_range (ratio s : Nat) (blocks : List ModBlock) :
    reporterIds (runPass ratio s blocks).2
      = (List.range' (s + 1) (blocks.countP fun b => blockSampled b.draw ratio)).map
          (fun i => i % 2 ^ 32)
    ∧ (s < 2 ^ 32 → (runPass ratio s blocks).1
        = (s + (blocks.countP fun b => blockSampled b.draw ratio)) % 2 ^ 32)
    ∧ (s + (blocks.countP fun b => blockSampled b.draw ratio) < 2 ^ 32 →
        reporterIds (runPass ratio s blocks).2
          = List.range' (s + 1) (blocks.countP fun b => blockSampled b.draw ratio)
        ∧ (reporterIds (runPass ratio s blocks).2).Nodup
        ∧ (reporterIds (runPass ratio s blocks).2).Pairwise (· < ·)) := by
  refine ⟨runPass_reporterIds ratio blocks s, runPass_fst ratio blocks s, ?_⟩
  intro hlt
  have heq : reporterIds (runPass ratio s blocks).2
      = List.range' (s + 1) (blocks.countP fun b => blockSampled b.draw ratio) := by
    rw [runPass_reporterIds ratio blocks s]
    exact range'_map_mod_eq _ _ _ (by omega)
  refine ⟨heq, ?_, ?_⟩
  · rw [heq]
    exact List.nodup_range' _ _
  · rw [heq]
    exact List.pairwise_lt_range' _ _

/-- Witness for C2 with prior 0 and one sampled block: the emitted set is
`{1}`, distinct and increasing, and the written-back counter is 1. -/
theorem block_ids_range_witness :
    reporterIds (runPass 100 0 [⟨⟨[], Term.other⟩, 5⟩]).2 = List.range' 1 1
    ∧ (runPass 100 0 [⟨⟨[], Term.other⟩, 5⟩]).1 = (0 + 1) % 2 ^ 32
    ∧ (reporterIds (runPass 100 0 [⟨⟨[], Term.other⟩, 5⟩]).2).Nodup :=
  ⟨((block_ids_range 100 0 [⟨⟨[], Term.other⟩, 5⟩]).2.2 (by decide)).1,
   (block_ids_range 100 0 [⟨⟨[], Term.other⟩, 5⟩]).2.1 (by decide),
   ((block_ids_range 100 0 [⟨⟨[], Term.other⟩, 5⟩]).2.2 (by decide)).2.1⟩

/-- C10: every runtime call emitted for one sampled block carries the same
BlockID — the reporter call and all distance-record calls — and no two
sampled blocks of one pass invocation share a BlockID, whatever counter
value the file supplied, as long as the invocation samples at most `2 ^ 32`
blocks (no real module has more). -/
theorem block_id_consistency (ratio s : Nat) (blocks : List ModBlock) :
    (∀ l ∈ (runPass ratio s blocks).2,
      ∃ curId, layoutReporterIds l = [curId]
        ∧ ∀ r ∈ layoutDistRecords l, r.blockId = curId)
    ∧ ((blocks.countP fun b => blockSampled b.draw ratio) ≤ 2 ^ 32 →
        (reporterIds (runPass ratio s blocks).2).Nodup) := by
  constructor
  · intro l hl
    obtain ⟨curId, bb, rfl⟩ := runPass_layouts ratio blocks s l hl
    refine ⟨curId, layoutReporterIds_instrumented curId bb, ?_⟩
    intro r hr
    rw [layoutDistRecords_instrumented] at hr
    rcases List.mem_append.1 hr with hr | hr
    · exact icmpRecords_blockId curId bb r hr
    · exact switchRecordsOf_blockId curId bb r hr
  · intro hn
    rw [runPass_reporterIds]
    exact range'_map_mod_nodup _ _ _ hn

/-- Witness for C10 on a singleton module whose block both compares and
branches: the reporter and the distance record both carry BlockID 1. -/
theorem block_id_consistency_witness :
    ∃ curId,
      layoutReporterIds (instrumentedLayout 1
          ⟨[Instr.otherInstr, Instr.icmp true 32 5 7], Term.br true⟩) = [curId]
      ∧ ∀ r ∈ layoutDistRecords (instrumentedLayout 1
          ⟨[Instr.otherInstr, Instr.icmp true 32 5 7], Term.br true⟩),
          r.blockId = curId :=
  (block_id_consistency 100 0 [⟨⟨[Instr.otherInstr, Instr.icmp true 32 5 7], Term.br true⟩, 0⟩]).1
    (instrumentedLayout 1 ⟨[Instr.otherInstr, Instr.icmp true 32 5 7], Term.br true⟩)
    (by decide)

/-- C4 counterexample: for 64-bit operands `a0 = 2 ^ 32`, `a1 = 0` the
emitted distance is the 32-bit truncation of `a0 XOR a1`, which is 0 even
though the operands differ — refuting the claimed "0 iff equal" for widths up
to 64 bits. -/
theorem icmp_distance_counterexample :
    layoutDistRecords (instrumentedLayout 1
        ⟨[Instr.otherInstr, Instr.icmp true 64 (2 ^ 32) 0], Term.br true⟩)
      = [⟨1, 0, 0⟩]
    ∧ (2 : Nat) ^ 32 ≠ 0 := by
  refine ⟨rfl, ?_⟩
  norm_num

/-- C4 amended: for a sampled block with more than 2 instructions ending in a
conditional branch fed by an integer comparison of width at most 64, exactly
one record with label 0 is emitted whose distance is the unsigned 32-bit cast
of `operand0 XOR operand1`; the distance is 0 iff the operands agree modulo
`2 ^ 32` (for widths at most 32 with in-range operands, iff they are equal);
non-integer comparisons and branches not fed by a comparison emit nothing. -/
theorem icmp_distance_records :
    (∀ curId (bb : BB) w a0 a1, 2 < bb.size → bb.term = Term.br true →
      bb.body.getLast? = some (Instr.icmp true w a0 a1) → w ≤ 64 →
      layoutDistRecords (instrumentedLayout curId bb) = [⟨curId, 0, (a0 ^^^ a1) % 2 ^ 32⟩]
        ∧ ((a0 ^^^ a1) % 2 ^ 32 = 0 ↔ a0 % 2 ^ 32 = a1 % 2 ^ 32)
        ∧ (w ≤ 32 → a0 < 2 ^ w → a1 < 2 ^ w →
            ((a0 ^^^ a1) % 2 ^ 32 = 0 ↔ a0 = a1)))
    ∧ (∀ curId (bb : BB) w a0 a1, bb.term = Term.br true →
      bb.body.getLast? = some (Instr.icmp false w a0 a1) →
      layoutDistRecords (instrumentedLayout curId bb) = [])
    ∧ (∀ curId (bb : BB), bb.term = Term.br true →
      (∀ wi w a0 a1, bb.body.getLast? ≠ some (Instr.icmp wi w a0 a1)) →
      layoutDistRecords (instrumentedLayout curId bb) = []) := by
  refine ⟨?_, ?_, ?_⟩
  · intro curId bb w a0 a1 hsize hterm hlast hw
    have hsw : switchRecordsOf curId bb = [] := by
      rw [switchRecordsOf, hterm]
    have hicmp : icmpRecords curId bb = [⟨curId, 0, (a0 ^^^ a1) % 2 ^ 32⟩] := by
      rw [icmpRecords, hlast]
      simp [hterm, isConditionalBr, hw]
    refine ⟨?_, xor_mod_eq_zero_iff a0 a1 32, ?_⟩
    · rw [layoutDistRecords_instrumented, hicmp, hsw]
      rfl
    · intro hw32 ha0 ha1
      have h0 : a0 < 2 ^ 32 := lt_of_lt_of_le ha0 (Nat.pow_le_pow_right (by omega) hw32)
      have h1 : a1 < 2 ^ 32 := lt_of_lt_of_le ha1 (Nat.pow_le_pow_right (by omega) hw32)
      rw [xor_mod_eq_zero_iff a0 a1 32, Nat.mod_eq_of_lt h0, Nat.mod_eq_of_lt h1]
  · intro curId bb w a0 a1 hterm hlast
    have hsw : switchRecordsOf curId bb = [] := by
      rw [switchRecordsOf, hterm]
    have hicmp : icmpRecords curId bb = [] := by
      rw [icmpRecords, hlast]
      simp
    rw [layoutDistRecords_instrumented, hicmp, hsw]
    rfl
  · intro curId bb hterm hlast
    have hsw : switchRecordsOf curId bb = [] := by
      rw [switchRecordsOf, hterm]
    have hicmp : icmpRecords curId bb = [] := by
      rw [icmpRecords]
      rcases hget : bb.body.getLast? with _ | i
      · rfl
      · cases i with
        | icmp wi w a0 a1 => exact absurd hget (hlast wi w a0 a1)
        | otherInstr => rfl
    rw [layoutDistRecords_instrumented, hicmp, hsw]
    rfl

/-- Witness for C4: comparing 5 and 7 at width 32 emits the single record
`(2, 0, 5 XOR 7 = 2)`. -/
theorem icmp_distance_records_witness :
    layoutDistRecords (instrumentedLayout 2
        ⟨[Instr.otherInstr, Instr.icmp true 32 5 7], Term.br true⟩) = [⟨2, 0, 2⟩] := by
  have h := (icmp_distance_records.1 2
    ⟨[Instr.otherInstr, Instr.icmp true 32 5 7], Term.br true⟩ 32 5 7
    (by decide) rfl rfl (by decide)).1
  rw [h]
  decide

/-- C9 counterexample: in a sampled block with a comparison-fed conditional
branch, the reporter call sits at index 8 (right after the edge-coverage
update) while a distance call sits at index 10 — the reporter does NOT
follow the distance calls. -/
theorem reporter_position_counterexample :
    (instrumentedLayout 1 ⟨[Instr.otherInstr, Instr.icmp true 32 5 7], Term.br true⟩)[8]?
      = some (Item.reporterCall 1)
    ∧ (instrumentedLayout 1 ⟨[Instr.otherInstr, Instr.icmp true 32 5 7], Term.br true⟩)[10]?
      = some (Item.distCall ⟨1, 0, 2⟩) := by
  decide

/-- C9 amended: the reporter call is emitted exactly once, placed immediately
after the eight edge-coverage instructions at the block's first insertion
point — after the edge-coverage update but before the original instructions
and before every distance-record call. -/
theorem reporter_position (curId : Nat) (bb : BB) :
    layoutReporterIds (instrumentedLayout curId bb) = [curId]
    ∧ (instrumentedLayout curId bb).take 8 = edgeCovInstrs
    ∧ (instrumentedLayout curId bb)[8]? = some (Item.reporterCall curId)
    ∧ (∀ j r, (instrumentedLayout curId bb)[j]? = some (Item.distCall r) → 8 < j) := by
  refine ⟨layoutReporterIds_instrumented curId bb, ?_, ?_, ?_⟩
  · rw [instrumentedLayout, List.append_assoc]
    exact List.take_left' rfl
  · simp [instrumentedLayout, edgeCovInstrs]
  · intro j r hj
    by_contra hle
    push_neg at hle
    interval_cases j <;> simp [instrumentedLayout, edgeCovInstrs] at hj

/-- Witness for C9: in the concrete block of the counterexample the distance
call found at index 10 indeed lies after the reporter at index 8. -/
theorem reporter_position_witness :
    8 < 10
    ∧ (instrumentedLayout 1 ⟨[Instr.otherInstr, Instr.icmp true 32 5 7], Term.br true⟩).take 8
        = edgeCovInstrs :=
  ⟨(reporter_position 1 ⟨[Instr.otherInstr, Instr.icmp true 32 5 7], Term.br true⟩).2.2.2
      10 ⟨1, 0, 2⟩ (by decide),
   (reporter_position 1 ⟨[Instr.otherInstr, Instr.icmp true 32 5 7], Term.br true⟩).2.1⟩

/-- C1 counterexample: a switch with case values `[10, 20]`, distinct case
destinations and a distinct default destination.  The claim predicts case
labels `[1, 2]` and default label `0`; the code labels the destination
operands with the default destination first, so the case records carry
labels `[2, 3]` and the default record carries label `1`, never `0`. -/
theorem case_labels_counterexample :
    (switchRecords 5 ⟨32, 0, 0, [⟨10, 1⟩, ⟨20, 2⟩]⟩).map DistanceRecord.caseLabel = [2, 3, 1]
    ∧ (switchRecords 5 ⟨32, 0, 0, [⟨10, 1⟩, ⟨20, 2⟩]⟩).map DistanceRecord.caseLabel
        ≠ [1, 2, 0] := by
  decide

/-- C1 amended: the label map is built over the switch's destination operands
(default destination first, then each case's destination), not over case
values: labels are assigned in first-occurrence order of destinations
starting at 1, so the default destination always gets label 1, cases sharing
a destination share a label, the default record carries label 1, and label 0
is never emitted. -/
theorem case_labels_by_destination (curId : Nat) (si : SwitchInfo) (h : si.width ≤ 64) :
    buildLabels (destOperands si) = (destOperands si).map (specLabel (destOperands si))
    ∧ (switchRecords curId si).map DistanceRecord.caseLabel
        = si.cases.map (fun c => specLabel (destOperands si) c.dest)
          ++ [specLabel (destOperands si) si.defaultDest]
    ∧ specLabel (destOperands si) si.defaultDest = 1
    ∧ (∀ r ∈ switchRecords curId si, 1 ≤ r.caseLabel) := by
  have hspec := buildLabels_eq_spec (destOperands si)
  have hhead : specLabel (destOperands si) si.defaultDest = 1 :=
    specLabel_head si.defaultDest (si.cases.map SwitchCase.dest)
  have hmap : (switchRecords curId si).map DistanceRecord.caseLabel
      = si.cases.map (fun c => specLabel (destOperands si) c.dest)
        ++ [specLabel (destOperands si) si.defaultDest] := by
    simp only [switchRecords, if_pos h]
    rw [List.map_append, switchCaseLoop_labels, List.map_singleton]
    congr 1
    · apply List.ext_getElem
      · simp
      · intro j h1 h2
        have hj : j < si.cases.length := by simpa using h1
        have hidx : 0 + 1 + j = j + 1 := by omega
        simp only [List.getElem_map, List.getElem_range, hidx]
        rw [hspec, List.getD_eq_getElem?_getD]
        have hd : j + 1 < (destOperands si).length := by
          simp only [destOperands, List.length_cons, List.length_map]
          omega
        rw [List.getElem?_eq_getElem (by simpa using hd), Option.getD_some,
          List.getElem_map]
        congr 1
        simp only [destOperands, List.getElem_cons_succ, List.getElem_map]
    · rw [hspec, List.getD_eq_getElem?_getD]
      have hd : 0 < (destOperands si).length := by
        simp [destOperands]
      rw [List.getElem?_eq_getElem (by simpa using hd), List.getElem_map]
      simp only [destOperands, List.getElem_cons_zero, Option.getD_some]
  refine ⟨hspec, hmap, hhead, ?_⟩
  intro r hr
  have hmem : r.caseLabel ∈ (switchRecords curId si).map DistanceRecord.caseLabel :=
    List.mem_map_of_mem DistanceRecord.caseLabel hr
  rw [hmap] at hmem
  rcases List.mem_append.1 hmem with hmem | hmem
  · obtain ⟨c, _, hc⟩ := List.mem_map.1 hmem
    rw [← hc]
    exact specLabel_pos _ _
  · rw [List.mem_singleton.1 hmem, hhead]

/-- Witness for C1 at the spec's example switch `[10, 20, 10, 30]` with
distinct destinations: the case records carry labels `[2, 3, 4, 5]` and the
default record label `1`. -/
theorem case_labels_by_destination_witness :
    (switchRecords 5 ⟨32, 10, 0, [⟨10, 1⟩, ⟨20, 2⟩, ⟨10, 3⟩, ⟨30, 4⟩]⟩).map
        DistanceRecord.caseLabel
      = [2, 3, 4, 5, 1] := by
  have h := (case_labels_by_destination 5
    ⟨32, 10, 0, [⟨10, 1⟩, ⟨20, 2⟩, ⟨10, 3⟩, ⟨30, 4⟩]⟩ (by decide)).2.1
  rw [h]
  decide

end AFLPass
